import Mathlib

/-!
Shallow embedding of `src/metatensor/models/utils/composition.py`:
the composition-weight solver `calculate_composition_weights` and the
applicator `apply_composition_contribution`, with theorems about them.

Modelling choices:
- floating-point scalars are modelled by exact rationals `ℚ`;
- `torch.linalg.solve` either succeeds with a solution or raises
  `torch._C._LinAlgError`; it is modelled by a function `ℚ → Option W`
  giving, for each regularizer value, the outcome of one solve attempt
  on the regularized normal-equations system (for the 2×2 scenario the
  attempt is instantiated concretely with `normalEq2Attempt`);
- a metatensor `TensorMap` is modelled as its iteration sequence, a list
  of (species key, block) pairs, and a `TensorBlock` as a structure with
  a flattened value list plus samples/components/properties labels;
- `composition_weights[atomic_species]` uses torch indexing semantics:
  indices in `[0, S)` index directly, indices in `[-S, 0)` index from the
  end, anything else raises `IndexError` (modelled as `torchIndex`);
- raised Python exceptions become `Except` error values.
-/

namespace Metatrain

/-- Initial value of the `regularizer` variable in
`calculate_composition_weights`: `1e-20`. -/
def regularizer0 : ℚ := 1 / 10 ^ 20

/-- Outcome of the solver loop: `unsolvable` models the `RuntimeError`
raised once the regularizer exceeds `1e5`; `fuelExhausted` is an artifact
of the bounded embedding of the source's `while` loop and is proved
unreachable from the actual starting state. -/
inductive SolveError where
  | unsolvable
  | fuelExhausted
deriving DecidableEq

/-- The `while regularizer:` loop of `calculate_composition_weights`.
Each iteration checks `regularizer > 1e5` (raising on success), then
makes one solve attempt: on success the loop breaks with the solution,
on `_LinAlgError` the regularizer is multiplied by `10.0` and the loop
continues. `fuel` bounds the recursion; 27 iterations are enough from
the starting regularizer `1e-20`. -/
def solverSteps {W : Type} (attempt : ℚ → Option W) : Nat → ℚ → Except SolveError W
  | 0, _ => .error .fuelExhausted
  | fuel + 1, lam =>
    if lam > 100000 then .error .unsolvable
    else
      match attempt lam with
      | some w => .ok w
      | none => solverSteps attempt fuel (lam * 10)

/-- The regularizer-escalation part of `calculate_composition_weights`,
abstracted over what one `torch.linalg.solve` attempt at a given
regularizer returns. -/
def calculate_composition_weights {W : Type} (attempt : ℚ → Option W) :
    Except SolveError W :=
  solverSteps attempt 27 regularizer0

/-- The regularizer value used by the k-th solve attempt of the loop:
starts at `1e-20` and is multiplied by `10` after each failure. -/
def lambdaAt : Nat → ℚ
  | 0 => regularizer0
  | k + 1 => lambdaAt k * 10

/-- One attempt of `torch.linalg.solve` on a 2×2 system
`[[a,b],[c,d]] · x = [e,f]`: modelled as succeeding exactly when the
matrix is invertible, returning the unique solution by Cramer's rule. -/
def solve2x2 (a b c d e f : ℚ) : Option (ℚ × ℚ) :=
  let det := a * d - b * c
  if det = 0 then none
  else some ((e * d - b * f) / det, (a * f - e * c) / det)

/-- The system actually handed to `torch.linalg.solve` for a 2-species
dataset: `composition_features.T @ composition_features + lam * eye` and
`composition_features.T @ targets`, with features `[[f11,f12],[f21,f22]]`
and targets `[t1,t2]`. -/
def normalEq2Attempt (f11 f12 f21 f22 t1 t2 : ℚ) (lam : ℚ) : Option (ℚ × ℚ) :=
  solve2x2 (f11 * f11 + f21 * f21 + lam) (f11 * f12 + f21 * f22)
    (f12 * f11 + f22 * f21) (f12 * f12 + f22 * f22 + lam)
    (f11 * t1 + f21 * t2) (f12 * t1 + f22 * t2)

/-- A metatensor `Labels` object: column names and integer rows. -/
structure Labels where
  names : List String
  values : List (List Int)
deriving DecidableEq

/-- A metatensor `TensorBlock`: a flattened list of scalar values plus
its samples/components/properties labels. -/
structure TensorBlock where
  values : List ℚ
  samples : Labels
  components : List Labels
  properties : Labels
deriving DecidableEq

/-- Errors `apply_composition_contribution` can raise:
`indexOutOfRange` models the `IndexError` from
`composition_weights[atomic_species]`; `emptyBlocks` models the
`IndexError` from `new_blocks[0].values.device` when the input map has
no blocks. -/
inductive ApplyError where
  | indexOutOfRange
  | emptyBlocks
deriving DecidableEq

/-- Torch tensor indexing `composition_weights[atomic_species]` for a
1-D weight tensor: a non-negative index below the length reads directly,
a negative index not below `-length` reads from the end, anything else
raises `IndexError` (`none`). -/
def torchIndex (w : List ℚ) (i : Int) : Option ℚ :=
  if 0 ≤ i ∧ i < (w.length : Int) then some (w.getD i.toNat 0)
  else if -(w.length : Int) ≤ i ∧ i < 0 then some (w.getD (i + w.length).toNat 0)
  else none

/-- The `for key, block in atomic_property.items():` loop of
`apply_composition_contribution`: for each entry, look up the weight of
the block's species, add it to every value, and rebuild the block with
the same samples/components/properties; the first failing lookup raises. -/
def processEntries (w : List ℚ) :
    List (Int × TensorBlock) → Except ApplyError (List (Int × TensorBlock))
  | [] => .ok []
  | (key, block) :: rest =>
    match torchIndex w key with
    | none => .error .indexOutOfRange
    | some c =>
      match processEntries w rest with
      | .error e => .error e
      | .ok tail =>
        .ok ((key, { block with values := block.values.map (fun v => v + c) }) :: tail)

/-- `apply_composition_contribution`: run the loop over all entries in
the input map's iteration order, then build the output keys `Labels`
from the collected species (reading `new_blocks[0].values.device`, which
raises `IndexError` on an empty map) and return the new `TensorMap`. -/
def apply_composition_contribution (atomic_property : List (Int × TensorBlock))
    (composition_weights : List ℚ) : Except ApplyError (List (Int × TensorBlock)) :=
  match processEntries composition_weights atomic_property with
  | .error e => .error e
  | .ok [] => .error .emptyBlocks
  | .ok entries => .ok entries

/-! Solver loop lemmas -/

theorem regularizer0_pos : 0 < regularizer0 := by
  unfold regularizer0; positivity

theorem lambdaAt_eq (k : Nat) : lambdaAt k = regularizer0 * 10 ^ k := by
  induction k with
  | zero => simp [lambdaAt]
  | succ k ih => rw [lambdaAt, ih]; ring

theorem lambdaAt_lt_succ (k : Nat) : lambdaAt k < lambdaAt (k + 1) := by
  have hpos : 0 < lambdaAt k := by
    rw [lambdaAt_eq]
    exact mul_pos regularizer0_pos (by positivity)
  rw [lambdaAt]
  linarith

theorem lambdaAt_le_bound (m : Nat) (hm : m ≤ 25) : lambdaAt m ≤ 100000 := by
  rw [lambdaAt_eq]
  have h1 : (10 : ℚ) ^ m ≤ 10 ^ 25 := pow_le_pow_right₀ (by norm_num) hm
  have h2 : regularizer0 * 10 ^ m ≤ regularizer0 * 10 ^ 25 :=
    mul_le_mul_of_nonneg_left h1 regularizer0_pos.le
  calc regularizer0 * 10 ^ m ≤ regularizer0 * 10 ^ 25 := h2
    _ = 100000 := by norm_num [regularizer0]

theorem lambdaAt_gt_bound (k : Nat) (hk : 26 ≤ k) : 100000 < lambdaAt k := by
  rw [lambdaAt_eq]
  have h1 : (10 : ℚ) ^ 26 ≤ 10 ^ k := pow_le_pow_right₀ (by norm_num) hk
  have h2 : regularizer0 * 10 ^ 26 ≤ regularizer0 * 10 ^ k :=
    mul_le_mul_of_nonneg_left h1 regularizer0_pos.le
  have h3 : regularizer0 * 10 ^ 26 = 1000000 := by norm_num [regularizer0]
  linarith

theorem solverSteps_success {W : Type} (attempt : ℚ → Option W) (w : W) :
    ∀ (m fuel : Nat) (lam : ℚ), 0 < lam →
      (∀ k < m, attempt (lam * 10 ^ k) = none) →
      attempt (lam * 10 ^ m) = some w →
      lam * 10 ^ m ≤ 100000 → m < fuel →
      solverSteps attempt fuel lam = .ok w := by
  intro m
  induction m with
  | zero =>
    intro fuel lam hpos hfail hok hle hf
    obtain ⟨f, rfl⟩ : ∃ f, fuel = f + 1 := ⟨fuel - 1, by omega⟩
    rw [pow_zero, mul_one] at hok hle
    simp [solverSteps, not_lt.mpr hle, hok]
  | succ m ih =>
    intro fuel lam hpos hfail hok hle hf
    obtain ⟨f, rfl⟩ : ∃ f, fuel = f + 1 := ⟨fuel - 1, by omega⟩
    have hshift : ∀ j : Nat, lam * 10 * 10 ^ j = lam * 10 ^ (j + 1) := by
      intro j; ring
    have hlam_le : lam ≤ 100000 := by
      have h1 : (1 : ℚ) ≤ 10 ^ (m + 1) := one_le_pow₀ (by norm_num)
      nlinarith
    have hfail0 := hfail 0 (Nat.succ_pos m)
    rw [pow_zero, mul_one] at hfail0
    rw [solverSteps, if_neg (not_lt.mpr hlam_le), hfail0]
    apply ih f (lam * 10) (by positivity)
    · intro k hk
      rw [hshift k]
      exact hfail (k + 1) (by omega)
    · rw [hshift m]; exact hok
    · rw [hshift m]; exact hle
    · omega

theorem solverSteps_allfail {W : Type} (attempt : ℚ → Option W) :
    ∀ (fuel : Nat) (lam : ℚ), 0 < lam →
      (∀ k : Nat, lam * 10 ^ k ≤ 100000 → attempt (lam * 10 ^ k) = none) →
      (∃ m, m < fuel ∧ 100000 < lam * 10 ^ m) →
      solverSteps attempt fuel lam = .error .unsolvable := by
  intro fuel
  induction fuel with
  | zero =>
    intro lam _ _ hm
    obtain ⟨m, hmf, _⟩ := hm
    omega
  | succ f ih =>
    intro lam hpos hfail hm
    obtain ⟨m, hmf, hmgt⟩ := hm
    have hshift : ∀ j : Nat, lam * 10 * 10 ^ j = lam * 10 ^ (j + 1) := by
      intro j; ring
    by_cases hl : 100000 < lam
    · rw [solverSteps, if_pos hl]
    · push_neg at hl
      have h0 := hfail 0 (by rw [pow_zero, mul_one]; exact hl)
      rw [pow_zero, mul_one] at h0
      rw [solverSteps, if_neg (not_lt.mpr hl), h0]
      apply ih (lam * 10) (by positivity)
      · intro k hk
        rw [hshift k] at hk ⊢
        exact hfail (k + 1) hk
      · have hm0 : m ≠ 0 := by
          rintro rfl
          rw [pow_zero, mul_one] at hmgt
          linarith
        obtain ⟨m', rfl⟩ : ∃ m', m = m' + 1 := ⟨m - 1, by omega⟩
        exact ⟨m', by omega, by rw [hshift m']; exact hmgt⟩

/-- C2: the solver escalates the regularizer by factors of 10 starting at
1e-20; if each attempt before the m-th fails with a singularity error and
the m-th (still within the 1e5 bound) succeeds with solution w, then the
loop returns w immediately; the regularizer sequence is strictly
increasing. -/
theorem solver_escalation_first_success {W : Type} (attempt : ℚ → Option W)
    (m : Nat) (w : W)
    (hfail : ∀ k < m, attempt (lambdaAt k) = none)
    (hok : attempt (lambdaAt m) = some w)
    (hm : m ≤ 25) :
    calculate_composition_weights attempt = .ok w ∧
      lambdaAt 0 = 1 / 10 ^ 20 ∧ ∀ k, lambdaAt k < lambdaAt (k + 1) := by
  refine ⟨?_, rfl, lambdaAt_lt_succ⟩
  unfold calculate_composition_weights
  apply solverSteps_success attempt w m 27 regularizer0 regularizer0_pos
  · intro k hk
    rw [← lambdaAt_eq]
    exact hfail k hk
  · rw [← lambdaAt_eq]; exact hok
  · rw [← lambdaAt_eq]; exact lambdaAt_le_bound m hm
  · omega

/-- C2 witness: an attempt that succeeds at once (m = 0) makes the solver
return its solution. -/
theorem solver_escalation_first_success_witness :
    calculate_composition_weights (fun _ : ℚ => some (5 : ℚ)) = .ok 5 ∧
      lambdaAt 0 = 1 / 10 ^ 20 ∧ ∀ k, lambdaAt k < lambdaAt (k + 1) :=
  solver_escalation_first_success (fun _ : ℚ => some (5 : ℚ)) 0 5
    (fun k hk => absurd hk (Nat.not_lt_zero k)) rfl (by omega)

/-- C3: the solver raises the fatal unsolvable-system error exactly when
every one of the 26 attempts (regularizers 1e-20 up to 1e5) fails, and
the bounded-fuel embedding of its while loop never runs out of fuel: the
loop always terminates within 26 attempts. -/
theorem solver_abort_iff {W : Type} (attempt : ℚ → Option W) :
    (calculate_composition_weights attempt = .error .unsolvable ↔
      ∀ k ≤ 25, attempt (lambdaAt k) = none) ∧
      calculate_composition_weights attempt ≠ .error .fuelExhausted := by
  by_cases hex : ∃ k, (attempt (lambdaAt k)).isSome = true ∧ k ≤ 25
  · obtain ⟨k0, hk0some, hk025⟩ := hex
    have hfind : ∃ k, (attempt (lambdaAt k)).isSome = true := ⟨k0, hk0some⟩
    set m := Nat.find hfind with hmdef
    have hmspec : (attempt (lambdaAt m)).isSome = true := Nat.find_spec hfind
    have hmmin : ∀ j < m, ¬ (attempt (lambdaAt j)).isSome = true :=
      fun j hj => Nat.find_min hfind hj
    have hm25 : m ≤ 25 := le_trans (Nat.find_min' hfind hk0some) hk025
    obtain ⟨w, hw⟩ := Option.isSome_iff_exists.mp hmspec
    have hfail : ∀ j < m, attempt (lambdaAt j) = none := by
      intro j hj
      have := hmmin j hj
      exact Option.not_isSome_iff_eq_none.mp this
    have hok : calculate_composition_weights attempt = .ok w := by
      unfold calculate_composition_weights
      apply solverSteps_success attempt w m 27 regularizer0 regularizer0_pos
      · intro j hj; rw [← lambdaAt_eq]; exact hfail j hj
      · rw [← lambdaAt_eq]; exact hw
      · rw [← lambdaAt_eq]; exact lambdaAt_le_bound m hm25
      · omega
    rw [hok]
    refine ⟨⟨fun h => absurd h (by simp), fun h => ?_⟩, by simp⟩
    have := h m hm25
    rw [this] at hw
    exact absurd hw (by simp)
  · push_neg at hex
    have hfailall : ∀ k ≤ 25, attempt (lambdaAt k) = none := by
      intro k hk
      exact Option.not_isSome_iff_eq_none.mp (fun hs => absurd hk (by
        have := hex k hs
        omega))
    have herr : calculate_composition_weights attempt = .error .unsolvable := by
      unfold calculate_composition_weights
      apply solverSteps_allfail attempt 27 regularizer0 regularizer0_pos
      · intro k hk
        rw [← lambdaAt_eq] at hk ⊢
        by_cases hk25 : k ≤ 25
        · exact hfailall k hk25
        · exact absurd hk (not_le.mpr (lambdaAt_gt_bound k (by omega)))
      · exact ⟨26, by omega, by rw [← lambdaAt_eq]; exact lambdaAt_gt_bound 26 le_rfl⟩
    rw [herr]
    exact ⟨⟨fun _ => hfailall, fun _ => rfl⟩, by simp⟩

/-! Applicator lemmas -/

theorem processEntries_ok_spec (w : List ℚ) :
    ∀ (m out : List (Int × TensorBlock)), processEntries w m = .ok out →
      List.Forall₂ (fun ie oe =>
        ie.1 = oe.1 ∧ ∃ c, torchIndex w ie.1 = some c ∧
          oe.2.values = ie.2.values.map (fun v => v + c) ∧
          oe.2.samples = ie.2.samples ∧
          oe.2.components = ie.2.components ∧
          oe.2.properties = ie.2.properties) m out := by
  intro m
  induction m with
  | nil =>
    intro out h
    unfold processEntries at h
    injection h with h
    subst h
    exact List.Forall₂.nil
  | cons e rest ih =>
    intro out h
    obtain ⟨key, block⟩ := e
    unfold processEntries at h
    cases hti : torchIndex w key with
    | none =>
      rw [hti] at h
      exact absurd h (by simp)
    | some c =>
      rw [hti] at h
      cases hre : processEntries w rest with
      | error err =>
        rw [hre] at h
        exact absurd h (by simp)
      | ok tail =>
        rw [hre] at h
        injection h with h
        subst h
        exact List.Forall₂.cons ⟨rfl, c, hti, rfl, rfl, rfl, rfl⟩ (ih tail hre)

theorem apply_ok_processEntries (m : List (Int × TensorBlock)) (w : List ℚ)
    (out : List (Int × TensorBlock))
    (h : apply_composition_contribution m w = .ok out) :
    processEntries w m = .ok out := by
  unfold apply_composition_contribution at h
  cases hp : processEntries w m with
  | error e =>
    rw [hp] at h
    exact absurd h (by simp)
  | ok l =>
    rw [hp] at h
    cases l with
    | nil => exact absurd h (by simp)
    | cons a l =>
      exact h

theorem forall2_fst_eq {R : (Int × TensorBlock) → (Int × TensorBlock) → Prop}
    (hR : ∀ a b, R a b → a.1 = b.1) :
    ∀ {l1 l2 : List (Int × TensorBlock)}, List.Forall₂ R l1 l2 →
      l2.map Prod.fst = l1.map Prod.fst := by
  intro l1 l2 h
  induction h with
  | nil => rfl
  | cons h1 h2 ih => simp [ih, hR _ _ h1]

theorem torchIndex_mem (w : List ℚ) (i : Int) (c : ℚ)
    (h : torchIndex w i = some c) : c ∈ w := by
  unfold torchIndex at h
  split_ifs at h with h1 h2
  · injection h with h
    subst h
    have hlt : i.toNat < w.length := by omega
    rw [List.getD_eq_getElem _ _ hlt]
    exact List.getElem_mem hlt
  · injection h with h
    subst h
    have hlt : (i + w.length).toNat < w.length := by omega
    rw [List.getD_eq_getElem _ _ hlt]
    exact List.getElem_mem hlt

theorem processEntries_mem_bad (w : List ℚ) (k : Int) (b : TensorBlock) :
    ∀ m : List (Int × TensorBlock), (k, b) ∈ m → torchIndex w k = none →
      processEntries w m = .error .indexOutOfRange := by
  intro m
  induction m with
  | nil =>
    intro hmem _
    cases hmem
  | cons e rest ih =>
    intro hmem hbad
    obtain ⟨k', b'⟩ := e
    rcases List.mem_cons.mp hmem with heq | hmem'
    · injection heq with h1 h2
      subst h1
      simp [processEntries, hbad]
    · cases hti : torchIndex w k' with
      | none => simp [processEntries, hti]
      | some c => simp [processEntries, hti, ih hmem' hbad]

/-! Claim theorems for the applicator -/

/-- C1 counterexample: on an input map whose iteration order is species 6
then species 1, `apply_composition_contribution` emits the keys in that
same order, so the output keys are not sorted by species ascending. -/
theorem apply_output_keys_not_sorted :
    ∃ out, apply_composition_contribution
        [(6, ⟨[1], ⟨[], []⟩, [], ⟨[], []⟩⟩), (1, ⟨[2], ⟨[], []⟩, [], ⟨[], []⟩⟩)]
        [0, 1 / 2, 0, 0, 0, 0, 3] = .ok out ∧
      out.map Prod.fst = [6, 1] ∧
      ¬ List.Sorted (fun a b => a ≤ b) (out.map Prod.fst) := by
  refine ⟨[(6, ⟨[4], ⟨[], []⟩, [], ⟨[], []⟩⟩), (1, ⟨[5/2], ⟨[], []⟩, [], ⟨[], []⟩⟩)],
    ?_, by simp, by decide⟩
  simp [apply_composition_contribution, processEntries, torchIndex]
  norm_num

/-- C1 (amended): the key list of the output map equals the key list of
the input map, in the input map's iteration order; no key is added or
dropped, and no sorting by species identifier is performed. -/
theorem apply_keys_in_iteration_order (m : List (Int × TensorBlock)) (w : List ℚ)
    (out : List (Int × TensorBlock))
    (h : apply_composition_contribution m w = .ok out) :
    out.map Prod.fst = m.map Prod.fst :=
  forall2_fst_eq (fun _ _ hab => hab.1)
    (processEntries_ok_spec w m out (apply_ok_processEntries m w out h))

/-- C1 witness: a singleton map keeps its key. -/
theorem apply_keys_in_iteration_order_witness :
    ([((3 : Int), (⟨[1], ⟨[], []⟩, [], ⟨[], []⟩⟩ : TensorBlock))]).map Prod.fst =
      ([((3 : Int), (⟨[0], ⟨[], []⟩, [], ⟨[], []⟩⟩ : TensorBlock))]).map Prod.fst :=
  apply_keys_in_iteration_order _ [0, 0, 0, 1] _
    (by simp [apply_composition_contribution, processEntries, torchIndex])

/-- C4: each output block's values are the corresponding input block's
values plus the weight of that block's species, broadcast to every
element; with an all-zero weight vector the output values are
numerically identical to the input's. -/
theorem apply_additivity (m : List (Int × TensorBlock)) (w : List ℚ)
    (out : List (Int × TensorBlock))
    (h : apply_composition_contribution m w = .ok out) :
    List.Forall₂ (fun ie oe => ∃ c, torchIndex w ie.1 = some c ∧
        oe.2.values = ie.2.values.map (fun v => v + c)) m out ∧
      ((∀ x ∈ w, x = 0) →
        List.Forall₂ (fun ie oe => oe.2.values = ie.2.values) m out) := by
  have hs := processEntries_ok_spec w m out (apply_ok_processEntries m w out h)
  constructor
  · refine hs.imp ?_
    rintro a b ⟨-, c, hc, hv, -, -, -⟩
    exact ⟨c, hc, hv⟩
  · intro hzero
    refine hs.imp ?_
    rintro a b ⟨-, c, hc, hv, -, -, -⟩
    have hc0 : c = 0 := hzero c (torchIndex_mem w a.1 c hc)
    subst hc0
    rw [hv]
    simp

/-- C4 witness: a single block with weight vector `[1/2]`. -/
theorem apply_additivity_witness :
    List.Forall₂ (fun ie oe => ∃ c, torchIndex [(1 : ℚ) / 2] ie.1 = some c ∧
        oe.2.values = ie.2.values.map (fun v => v + c))
      [((0 : Int), (⟨[0], ⟨[], []⟩, [], ⟨[], []⟩⟩ : TensorBlock))]
      [((0 : Int), (⟨[1 / 2], ⟨[], []⟩, [], ⟨[], []⟩⟩ : TensorBlock))] :=
  (apply_additivity _ _ _
    (by simp [apply_composition_contribution, processEntries, torchIndex])).1

/-- C5: every output block carries exactly the samples, components and
properties labels of the corresponding input block, and the keys (as a
list and as a set) are exactly the input keys. -/
theorem apply_preserves_labels_and_keys (m : List (Int × TensorBlock)) (w : List ℚ)
    (out : List (Int × TensorBlock))
    (h : apply_composition_contribution m w = .ok out) :
    List.Forall₂ (fun ie oe => oe.2.samples = ie.2.samples ∧
        oe.2.components = ie.2.components ∧
        oe.2.properties = ie.2.properties) m out ∧
      out.map Prod.fst = m.map Prod.fst ∧
      (out.map Prod.fst).toFinset = (m.map Prod.fst).toFinset := by
  have hs := processEntries_ok_spec w m out (apply_ok_processEntries m w out h)
  have hkeys : out.map Prod.fst = m.map Prod.fst :=
    forall2_fst_eq (fun _ _ hab => hab.1) hs
  refine ⟨?_, hkeys, by rw [hkeys]⟩
  refine hs.imp ?_
  rintro a b ⟨-, c, -, -, hsamp, hcomp, hprop⟩
  exact ⟨hsamp, hcomp, hprop⟩

/-- C5 witness: key list preservation at a concrete singleton map. -/
theorem apply_preserves_labels_and_keys_witness :
    ([((0 : Int), (⟨[1 / 2], ⟨["s"], [[0]]⟩, [], ⟨["p"], [[0]]⟩⟩ : TensorBlock))]).map Prod.fst =
      ([((0 : Int), (⟨[0], ⟨["s"], [[0]]⟩, [], ⟨["p"], [[0]]⟩⟩ : TensorBlock))]).map Prod.fst :=
  (apply_preserves_labels_and_keys _ [(1 : ℚ) / 2] _
    (by simp [apply_composition_contribution, processEntries, torchIndex])).2.1

/-- C6: a species key the weight tensor cannot index makes
`apply_composition_contribution` fail with the index-out-of-range error;
the error propagates and no partial output is produced. -/
theorem apply_out_of_range_error (m : List (Int × TensorBlock)) (w : List ℚ)
    (k : Int) (b : TensorBlock) (hmem : (k, b) ∈ m)
    (hbad : torchIndex w k = none) :
    apply_composition_contribution m w = .error .indexOutOfRange := by
  have hp : processEntries w m = .error .indexOutOfRange :=
    processEntries_mem_bad w k b m hmem hbad
  unfold apply_composition_contribution
  rw [hp]

/-- C6 witness: species 5 with an empty weight vector. -/
theorem apply_out_of_range_error_witness :
    apply_composition_contribution
        [((5 : Int), (⟨[0], ⟨[], []⟩, [], ⟨[], []⟩⟩ : TensorBlock))] [] =
      .error .indexOutOfRange :=
  apply_out_of_range_error _ _ 5 (⟨[0], ⟨[], []⟩, [], ⟨[], []⟩⟩ : TensorBlock)
    (by simp) (by decide)

/-- C9: an empty input map makes `apply_composition_contribution` fail
with the indexing error raised while reading the device of the first new
block, instead of returning an empty map. -/
theorem apply_empty_map_error (w : List ℚ) :
    apply_composition_contribution [] w = .error .emptyBlocks := rfl

/-- C10: a negative species identifier within reverse-indexing range is
not an error: the weight at position `length + v` is silently added to
the block; torch indexing fails exactly for identifiers at or above the
length or strictly below its negation. -/
theorem apply_negative_species_index (w : List ℚ) (v : Int) (b : TensorBlock)
    (h1 : -(w.length : Int) ≤ v) (h2 : v < 0) :
    (∃ c, torchIndex w v = some c ∧ c = w.getD (v + w.length).toNat 0 ∧
      apply_composition_contribution [(v, b)] w =
        .ok [(v, { b with values := b.values.map (fun x => x + c) })]) ∧
    ∀ u : Int, torchIndex w u = none ↔
      ((w.length : Int) ≤ u ∨ u < -(w.length : Int)) := by
  constructor
  · have hti : torchIndex w v = some (w.getD (v + w.length).toNat 0) := by
      unfold torchIndex
      rw [if_neg (by omega), if_pos ⟨h1, h2⟩]
    refine ⟨w.getD (v + w.length).toNat 0, hti, rfl, ?_⟩
    simp [apply_composition_contribution, processEntries, hti]
  · intro u
    unfold torchIndex
    split_ifs with ha hb
    · exact iff_of_false (by simp) (by omega)
    · exact iff_of_false (by simp) (by omega)
    · exact iff_of_true rfl (by omega)

/-- C10 witness: index -1 into the two-element weight vector `[1, 2]`. -/
theorem apply_negative_species_index_witness :
    (∃ c, torchIndex [1, 2] (-1) = some c ∧
      c = List.getD [1, 2] ((-1 + (List.length [(1 : ℚ), 2] : Int)).toNat) 0 ∧
      apply_composition_contribution
          [(-1, (⟨[0], ⟨[], []⟩, [], ⟨[], []⟩⟩ : TensorBlock))] [1, 2] =
        .ok [(-1, { (⟨[0], ⟨[], []⟩, [], ⟨[], []⟩⟩ : TensorBlock) with
          values := List.map (fun x => x + c) [0] })]) ∧
    ∀ u : Int, torchIndex [1, 2] u = none ↔
      ((List.length [(1 : ℚ), 2] : Int) ≤ u ∨ u < -(List.length [(1 : ℚ), 2] : Int)) :=
  apply_negative_species_index [1, 2] (-1)
    (⟨[0], ⟨[], []⟩, [], ⟨[], []⟩⟩ : TensorBlock) (by decide) (by decide)

/-- C8: on the spec's scenario (features `[[2,0],[0,3]]`, targets
`[10, 30]`, so that the targets equal the features applied to the true
weights `(5, 10)`), the very first solve attempt at regularizer 1e-20
succeeds and the solver returns weights within 1e-6 relative error of
`(5, 10)`. -/
theorem solver_scenario_exact_recovery :
    ∃ w1 w2,
      normalEq2Attempt 2 0 0 3 10 30 (lambdaAt 0) = some (w1, w2) ∧
      calculate_composition_weights (normalEq2Attempt 2 0 0 3 10 30) = .ok (w1, w2) ∧
      2 * 5 + 0 * 10 = (10 : ℚ) ∧ 0 * 5 + 3 * 10 = (30 : ℚ) ∧
      |w1 - 5| ≤ 5 / 10 ^ 6 ∧ |w2 - 10| ≤ 10 / 10 ^ 6 := by
  have hAtt : normalEq2Attempt 2 0 0 3 10 30 regularizer0 =
      some (2 * 10 ^ 21 / (4 * 10 ^ 20 + 1), 9 * 10 ^ 21 / (9 * 10 ^ 20 + 1)) := by
    norm_num [normalEq2Attempt, solve2x2, regularizer0]
  refine ⟨_, _, hAtt, ?_, by norm_num, by norm_num, ?_, ?_⟩
  · unfold calculate_composition_weights
    apply solverSteps_success _ _ 0 27 regularizer0 regularizer0_pos
    · intro k hk
      exact absurd hk (Nat.not_lt_zero k)
    · rw [pow_zero, mul_one]
      exact hAtt
    · rw [pow_zero, mul_one]
      norm_num [regularizer0]
    · omega
  · rw [abs_le]
    constructor <;> norm_num
  · rw [abs_le]
    constructor <;> norm_num

end Metatrain
